import Mathlib

/-!
# Verification of the opencommit GitHub-action pipeline

Shallow embedding of `src/github-action.ts` (the chunked request pipeline
`improveMessagesInChunks`, the bulk diff fetch `getDiffsBySHAs`, the history
rewrite section of `improveCommitMessages`, and the `run` entry point).

JavaScript promise semantics matter here and are modelled explicitly:
* calling an `async` function starts it immediately, so
  `diffsAndSHAs.map((commit) => generateCommitMessageByDiff(commit.diff))`
  (github-action.ts:67) issues every generation request before the chunk loop
  runs — the per-input outcome is therefore a single value fixed at creation
  time, modelled as `generate : String → Except String String` applied once
  per input;
* a settled promise is memoized: awaiting it again yields the same outcome,
  so the retry path (`step -= chunkSize`, github-action.ts:109) re-awaits the
  same already-settled promises.

The retry loop of the source has no bound, so the loop is given explicit
fuel; `none` means the loop has not terminated within that fuel (in the
source: it never terminates, since outcomes are memoized).
-/

namespace OpenCommit

/-- `{ sha, diff }` record of github-action.ts. -/
structure DiffAndSHA where
  sha : String
  diff : String
deriving DecidableEq, Repr, Inhabited

/-- `{ sha, msg }` record of github-action.ts. -/
structure MsgAndSHA where
  sha : String
  msg : String
deriving DecidableEq, Repr, Inhabited

/-- `{ id, message }` element of the push payload's commit list. -/
structure CommitRef where
  id : String
  message : String
deriving DecidableEq, Repr, Inhabited

/-- `const chunkSize = diffsAndSHAs.length % 2 === 0 ? 4 : 3` (github-action.ts:65). -/
def chunkSizeOf (n : Nat) : Nat :=
  if n % 2 = 0 then 4 else 3

/-- `Promise.all` over a list of already-settled outcomes: the list of values
if all are fulfilled, otherwise the (first) rejection. -/
def promiseAll {α : Type} : List (Except String α) → Except String (List α)
  | [] => .ok []
  | .ok v :: rest =>
    match promiseAll rest with
    | .ok vs => .ok (v :: vs)
    | .error e => .error e
  | .error e :: _ => .error e

/-- Value of a fulfilled outcome (`dflt` is never used on the paths we prove
about, which establish fulfilment first). -/
def okVal {α : Type} (dflt : α) : Except String α → α
  | .ok v => v
  | .error _ => dflt

/-- One sleep of the pipeline: `short` is the inter-chunk jitter of the
success path (github-action.ts:91-92), `long` the rate-limit backoff of the
catch path (github-action.ts:104). -/
inductive SleepEv
  | short (ms : Nat)
  | long (ms : Nat)
deriving DecidableEq, Repr

/-- The body of
`chunkOfImprovedMessages.map((improvedMsg, i) => { const index = improvedMessagesAndSHAs.length; const sha = diffsAndSHAs[index + i].sha; return { sha, msg’ } })`
(github-action.ts:78-85): `acc` is `improvedMessagesAndSHAs` at the time the
map runs (before the push). Out-of-bounds indexing is totalized with
`default`; the invariant proofs show it is never exercised. -/
def chunkResults (diffsAndSHAs : List DiffAndSHA) (acc : List MsgAndSHA)
    (msgs : List String) : List MsgAndSHA :=
  msgs.mapIdx fun i improvedMsg =>
    ⟨((diffsAndSHAs.get? (acc.length + i)).getD default).sha, improvedMsg⟩

/-- The `for (let step = 0; ...; step += chunkSize)` loop of
`improveMessagesInChunks` (github-action.ts:72-111), with explicit fuel.
`rng : Nat → Nat` is the stream of `randomIntFromInterval(1, 5)` draws and
`k` the cursor into it. The success path appends the chunk's results and
advances `step` by `chunkSize`; the catch path appends nothing, sleeps the
long backoff, and (via `step -= chunkSize` followed by the loop increment)
retries the same `step` — against the same settled promises. -/
def chunkLoop (diffsAndSHAs : List DiffAndSHA) (improvePromises : List (Except String String))
    (chunkSize : Nat) (rng : Nat → Nat) :
    Nat → Nat → List MsgAndSHA → Nat → Option (List MsgAndSHA) × List SleepEv
  | 0, _, _, _ => (none, [])
  | fuel + 1, step, acc, k =>
    if step < improvePromises.length then
      let chunkOfPromises := (improvePromises.drop step).take chunkSize
      match promiseAll chunkOfPromises with
      | .ok chunkOfImprovedMessages =>
        let sleepFor := 1000 * rng k + 100 * rng (k + 1)
        let rest := chunkLoop diffsAndSHAs improvePromises chunkSize rng fuel
          (step + chunkSize) (acc ++ chunkResults diffsAndSHAs acc chunkOfImprovedMessages)
          (k + 2)
        (rest.1, SleepEv.short sleepFor :: rest.2)
      | .error _ =>
        let sleepFor := 60000 + 1000 * rng k
        let rest := chunkLoop diffsAndSHAs improvePromises chunkSize rng fuel step acc (k + 1)
        (rest.1, SleepEv.long sleepFor :: rest.2)
    else (some acc, [])

/-- `improveMessagesInChunks` (github-action.ts:64-114): all generation
promises are created by the eager `.map` before the loop, then awaited in
chunks of `chunkSizeOf`. Returns the result (if the loop terminated within
`fuel` iterations) together with the sleep trace. -/
def improveMessagesInChunks (generate : String → Except String String) (rng : Nat → Nat)
    (diffsAndSHAs : List DiffAndSHA) (fuel : Nat) :
    Option (List MsgAndSHA) × List SleepEv :=
  let chunkSize := chunkSizeOf diffsAndSHAs.length
  let improvePromises := diffsAndSHAs.map fun commit => generate commit.diff
  chunkLoop diffsAndSHAs improvePromises chunkSize rng fuel 0 [] 0

/-! ## Temporal trace of the pipeline (issuance vs. chunk completion)

`improvePipelineEvents` records, in program order, when each generation
request is issued and when each chunk's `Promise.all` settles. The `issue`
events all precede the loop because the eager `.map` at github-action.ts:67
calls `generateCommitMessageByDiff` (an async function, which starts running
when called) for every input before the first `await`. -/

/-- Observable pipeline event. -/
inductive PipelineEv
  | issue (idx : Nat)
  | chunkDone (start len : Nat)
  | chunkFailed (start : Nat)
deriving DecidableEq, Repr

/-- Chunk-level events of the loop (github-action.ts:72-111): fan-in
completion or failure of each awaited chunk, in order. -/
def chunkLoopEvents (improvePromises : List (Except String String)) (chunkSize : Nat) :
    Nat → Nat → List PipelineEv
  | 0, _ => []
  | fuel + 1, step =>
    if step < improvePromises.length then
      let chunkOfPromises := (improvePromises.drop step).take chunkSize
      match promiseAll chunkOfPromises with
      | .ok _ =>
        PipelineEv.chunkDone step chunkOfPromises.length ::
          chunkLoopEvents improvePromises chunkSize fuel (step + chunkSize)
      | .error _ =>
        PipelineEv.chunkFailed step ::
          chunkLoopEvents improvePromises chunkSize fuel step
    else []

/-- Full event trace of `improveMessagesInChunks`: every request is issued by
`diffsAndSHAs.map((commit) => generateCommitMessageByDiff(commit.diff))`
(github-action.ts:67-69) before the chunk loop awaits anything. -/
def improvePipelineEvents (generate : String → Except String String)
    (diffsAndSHAs : List DiffAndSHA) (fuel : Nat) : List PipelineEv :=
  (List.range diffsAndSHAs.length).map PipelineEv.issue ++
    chunkLoopEvents (diffsAndSHAs.map fun commit => generate commit.diff)
      (chunkSizeOf diffsAndSHAs.length) fuel 0

/-! ## The rewrite section of `improveCommitMessages` -/

/-- One side effect of the rewrite section: a `writeFileSync`, an
`exec.exec cmd args env`, or an `unlinkSync`. The `chmod` invocation of the
source passes the whole command line as one string, modelled as `cmd` with
empty `args`. -/
inductive Effect
  | writeFile (path content : String)
  | exec (cmd : String) (args : List String) (env : List (String × String))
  | unlink (path : String)
deriving DecidableEq, Repr

/-- The rebase-exec script literal (github-action.ts:179-182). -/
def rebaseScript : String :=
  "#!/bin/bash\n    count=$(cat count.txt)\n    git commit --amend -F commit-$count.txt\n    echo $(( count + 1 )) > count.txt"

/-- Environment passed to the rebase (github-action.ts:191-195):
`GIT_SEQUENCE_EDITOR` rewords every commit, and the committer identity is set
explicitly from the actor. -/
def rebaseEnv (actor : String) : List (String × String) :=
  [("GIT_SEQUENCE_EDITOR", "sed -i -e \"s/^pick/reword/g\""),
   ("GIT_COMMITTER_NAME", actor),
   ("GIT_COMMITTER_EMAIL", actor ++ "@users.noreply.github.com")]

/-- `improvedMessagesWithSHAs.some(({ msg }, index) => msg !== commitsToImprove[index].message)`
(github-action.ts:162-164). -/
def messagesChanged (commitsToImprove : List CommitRef) (improved : List MsgAndSHA) : Bool :=
  improved.enum.any fun p =>
    p.2.msg != ((commitsToImprove.get? p.1).getD default).message

/-- The rewrite section of `improveCommitMessages` (github-action.ts:161-213)
as its sequence of side effects: if no message changed, the section returns
before doing anything; otherwise it writes the `N` message files, the counter
file, the script, marks the script executable, runs one reword-rebase from
`commitsToImprove[0].id^`, deletes the `N + 2` files, and force-pushes. -/
def rewriteEffects (actor : String) (commitsToImprove : List CommitRef)
    (improved : List MsgAndSHA) : List Effect :=
  if messagesChanged commitsToImprove improved then
    (improved.enum.map fun p =>
      Effect.writeFile ("./commit-" ++ toString p.1 ++ ".txt") p.2.msg)
    ++ [Effect.writeFile "./count.txt" "0",
        Effect.writeFile "./rebase-exec.sh" rebaseScript,
        Effect.exec "chmod +x ./rebase-exec.sh" [] [],
        Effect.exec "git"
          ["rebase", ((commitsToImprove.get? 0).getD default).id ++ "^",
           "--exec", "./rebase-exec.sh"] (rebaseEnv actor)]
    ++ (commitsToImprove.enum.map fun p =>
        Effect.unlink ("./commit-" ++ toString p.1 ++ ".txt"))
    ++ [Effect.unlink "./count.txt", Effect.unlink "./rebase-exec.sh",
        Effect.exec "git" ["status"] [],
        Effect.exec "git" ["push", "--force"] []]
  else []

/-! ## `getDiffsBySHAs`, `improveCommitMessages`, `run` -/

/-- `getCommitDiff` (github-action.ts:32-45): one hosted-API diff request,
abstracted as `request : sha → Except error diffBody`; on success pairs the
sha with the diff body. -/
def getCommitDiff (request : String → Except String String) (commitSha : String) :
    Except String DiffAndSHA :=
  match request commitSha with
  | .ok diff => .ok ⟨commitSha, diff⟩
  | .error e => .error e

/-- `getDiffsBySHAs` (github-action.ts:122-131): one concurrent fetch per
sha, joined with `Promise.all`; the `.catch` logs and rethrows, leaving the
error unchanged. -/
def getDiffsBySHAs (request : String → Except String String) (SHAs : List String) :
    Except String (List DiffAndSHA) :=
  promiseAll (SHAs.map (getCommitDiff request))

/-- Outcome of `improveCommitMessages`. `timedOut` is the fuel-exhaustion
marker of the embedded retry loop (the source loops forever there);
`fetchFailed` is the error rethrown by `getDiffsBySHAs`, which propagates to
`run`'s catch. -/
inductive ImproveResult
  | noNewCommits
  | fetchFailed (e : String)
  | timedOut
  | done (effects : List Effect)
deriving DecidableEq, Repr

/-- `improveCommitMessages` (github-action.ts:139-214): empty commit list
returns at the explicit "No new commits found." path before fetching or
generating anything; otherwise fetch all diffs, run the chunked pipeline,
then perform the rewrite section. -/
def improveCommitMessages (fetch generate : String → Except String String)
    (rng : Nat → Nat) (fuel : Nat) (actor : String)
    (commitsToImprove : List CommitRef) : ImproveResult :=
  if commitsToImprove.length > 0 then
    match getDiffsBySHAs fetch (commitsToImprove.map fun commit => commit.id) with
    | .error e => .fetchFailed e
    | .ok diffsWithSHAs =>
      match (improveMessagesInChunks generate rng diffsWithSHAs fuel).1 with
      | none => .timedOut
      | some improvedMessagesWithSHAs =>
        .done (rewriteEffects actor commitsToImprove improvedMessagesWithSHAs)
  else .noNewCommits

/-- Process exit behaviour of `run` (github-action.ts:221-253). `failed`
models `core.setFailed` (exit code 1), reached only through the catch block;
`noExit` models the unbounded retry loop never terminating. On a non-push
event the source calls `outro('Wrong action.')` and `core.error(...)` —
`core.error` only emits an error annotation and does not change the exit
code, so that path still exits 0. -/
inductive ExitStatus
  | success
  | failed
  | noExit
deriving DecidableEq, Repr

/-- Event context available to `run`: the webhook event name and the push
payload's commit list, plus the actor used for the committer identity. -/
structure RunCtx where
  eventName : String
  actor : String
  commits : List CommitRef
deriving Inhabited

/-- `run` (github-action.ts:221-251) down to its exit status. Errors thrown
inside the try block (modelled: a fetch failure) are caught and turned into
`core.setFailed`; a completed `improveCommitMessages` (rewrite done or no-op)
exits 0; a non-push event exits 0 after the `core.error` annotation. -/
def run (fetch generate : String → Except String String) (rng : Nat → Nat)
    (fuel : Nat) (ctx : RunCtx) : ExitStatus :=
  if ctx.eventName = "push" then
    match improveCommitMessages fetch generate rng fuel ctx.actor ctx.commits with
    | .fetchFailed _ => .failed
    | .timedOut => .noExit
    | .noNewCommits => .success
    | .done _ => .success
  else .success

/-! ## Helper lemmas -/

lemma promiseAll_ok {α : Type} (dflt : α) (l : List (Except String α))
    (h : ∀ x ∈ l, ∃ v, x = .ok v) :
    promiseAll l = .ok (l.map (okVal dflt)) := by
  induction l with
  | nil => rfl
  | cons x rest ih =>
    obtain ⟨v, rfl⟩ := h x (List.mem_cons_self x rest)
    have hrest := ih fun y hy => h y (List.mem_cons_of_mem _ hy)
    simp [promiseAll, hrest, okVal]

lemma promiseAll_ok_length {α : Type} {l : List (Except String α)} {v : List α}
    (h : promiseAll l = .ok v) : v.length = l.length := by
  induction l generalizing v with
  | nil => simp [promiseAll] at h; simp [← h]
  | cons x rest ih =>
    match x with
    | .error e => simp [promiseAll] at h
    | .ok a =>
      simp only [promiseAll] at h
      cases hrest : promiseAll rest with
      | ok vs => rw [hrest] at h; simp at h; simp [← h, ih hrest]
      | error e => rw [hrest] at h; simp at h

lemma promiseAll_error {α : Type} (l : List (Except String α))
    (h : ∃ x ∈ l, ∃ e, x = .error e) :
    ∃ e, promiseAll l = .error e ∧ Except.error e ∈ l := by
  induction l with
  | nil => simp at h
  | cons x rest ih =>
    match x with
    | .error e => exact ⟨e, rfl, List.mem_cons_self _ _⟩
    | .ok a =>
      obtain ⟨y, hy, e', hy'⟩ := h
      rcases List.mem_cons.mp hy with heq | hmem
      · subst hy'; simp at heq
      · obtain ⟨e, he, hmem'⟩ := ih ⟨y, hmem, e', hy'⟩
        refine ⟨e, ?_, List.mem_cons_of_mem _ hmem'⟩
        simp [promiseAll, he]

lemma chunkResults_length (d : List DiffAndSHA) (acc : List MsgAndSHA)
    (msgs : List String) : (chunkResults d acc msgs).length = msgs.length := by
  simp [chunkResults]

lemma chunkResults_get? (d : List DiffAndSHA) (acc : List MsgAndSHA)
    (msgs : List String) (i : Nat) :
    (chunkResults d acc msgs).get? i =
      (msgs.get? i).map fun m =>
        ⟨((d.get? (acc.length + i)).getD default).sha, m⟩ := by
  simp only [chunkResults, List.mapIdx_eq_enum_map, List.get?_map, List.get?_enum]
  cases msgs.get? i <;> rfl

/-! ## C1: index correspondence on the all-success path -/

lemma chunkLoop_allOk (d : List DiffAndSHA) (p : List (Except String String))
    (cs : Nat) (rng : Nat → Nat) (hcs : 0 < cs) (hlen : p.length = d.length)
    (hok : ∀ x ∈ p, ∃ v, x = .ok v) :
    ∀ fuel step acc k, acc.length = min step d.length →
      (∀ i, i < acc.length →
        ((acc.get? i).getD default).sha = ((d.get? i).getD default).sha) →
      p.length - step < fuel →
      ∃ out, (chunkLoop d p cs rng fuel step acc k).1 = some out ∧
        out.length = d.length ∧
        ∀ i, i < d.length →
          ((out.get? i).getD default).sha = ((d.get? i).getD default).sha := by
  intro fuel
  induction fuel with
  | zero => intro step acc k _ _ hf; omega
  | succ fuel ih =>
    intro step acc k hinv hsha hf
    by_cases hlt : step < p.length
    · have hchunkok : ∀ x ∈ (p.drop step).take cs, ∃ v, x = .ok v := fun x hx =>
        hok x (List.mem_of_mem_drop (List.mem_of_mem_take hx))
      have hpa := promiseAll_ok "" _ hchunkok
      have hmsglen : (((p.drop step).take cs).map (okVal "")).length =
          min cs (p.length - step) := by
        simp
      set msgs := ((p.drop step).take cs).map (okVal "") with hmsgs
      have hstep : step < d.length := hlen ▸ hlt
      have hacc : acc.length = step := by omega
      have hacclen : (acc ++ chunkResults d acc msgs).length = min (step + cs) d.length := by
        rw [List.length_append, chunkResults_length, hmsglen, hacc]
        omega
      have hsha' : ∀ i, i < (acc ++ chunkResults d acc msgs).length →
          (((acc ++ chunkResults d acc msgs).get? i).getD default).sha =
            ((d.get? i).getD default).sha := by
        intro i hi
        by_cases hia : i < acc.length
        · rw [List.get?_append hia]
          exact hsha i hia
        · push_neg at hia
          rw [List.get?_append_right hia, chunkResults_get?]
          have hirange : i - acc.length < msgs.length := by
            rw [List.length_append, chunkResults_length] at hi
            omega
          rw [List.get?_eq_get hirange]
          have hidx : acc.length + (i - acc.length) = i := by omega
          simp [hidx]
      have hfuel' : p.length - (step + cs) < fuel := by omega
      refine ?_
      unfold chunkLoop
      simp only [hlt, if_true, hpa]
      exact ih (step + cs) (acc ++ chunkResults d acc msgs) (k + 2) hacclen hsha' hfuel'
    · push_neg at hlt
      have haccd : acc.length = d.length := by omega
      refine ⟨acc, ?_, haccd, fun i hi => hsha i (by omega)⟩
      unfold chunkLoop
      simp [Nat.not_lt.mpr hlt]

/-- C1: if every generation request is fulfilled, the pipeline returns one
output per input, and the `i`-th output carries the `i`-th input's sha,
regardless of chunk size. -/
theorem improveMessagesInChunks_preserves_order
    (generate : String → Except String String) (rng : Nat → Nat)
    (diffsAndSHAs : List DiffAndSHA) (fuel : Nat)
    (hok : ∀ c ∈ diffsAndSHAs, ∃ v, generate c.diff = .ok v)
    (hfuel : diffsAndSHAs.length < fuel) :
    ∃ out, (improveMessagesInChunks generate rng diffsAndSHAs fuel).1 = some out ∧
      out.length = diffsAndSHAs.length ∧
      ∀ i, i < diffsAndSHAs.length →
        ((out.get? i).getD default).sha = ((diffsAndSHAs.get? i).getD default).sha := by
  have hcs : 0 < chunkSizeOf diffsAndSHAs.length := by
    unfold chunkSizeOf; split <;> omega
  have hlen : (diffsAndSHAs.map fun c => generate c.diff).length = diffsAndSHAs.length :=
    List.length_map _ _
  have hok' : ∀ x ∈ diffsAndSHAs.map fun c => generate c.diff, ∃ v, x = .ok v := by
    intro x hx
    obtain ⟨c, hc, rfl⟩ := List.mem_map.mp hx
    exact hok c hc
  exact chunkLoop_allOk diffsAndSHAs _ _ rng hcs hlen hok' fuel 0 [] 0 (by simp)
    (by intro i hi; simp at hi) (by omega)

/-- C1 witness: a concrete two-commit run where both requests succeed. -/
theorem improveMessagesInChunks_preserves_order_witness :
    ∃ out, (improveMessagesInChunks (fun diff => .ok ("msg:" ++ diff)) (fun _ => 2)
        [⟨"sha1", "d1"⟩, ⟨"sha2", "d2"⟩] 3).1 = some out ∧
      out.length = ([⟨"sha1", "d1"⟩, ⟨"sha2", "d2"⟩] : List DiffAndSHA).length ∧
      ∀ i, i < ([⟨"sha1", "d1"⟩, ⟨"sha2", "d2"⟩] : List DiffAndSHA).length →
        ((out.get? i).getD default).sha =
          ((([⟨"sha1", "d1"⟩, ⟨"sha2", "d2"⟩] : List DiffAndSHA).get? i).getD default).sha :=
  improveMessagesInChunks_preserves_order (fun diff => .ok ("msg:" ++ diff)) (fun _ => 2)
    [⟨"sha1", "d1"⟩, ⟨"sha2", "d2"⟩] 3
    (by intro c _; exact ⟨"msg:" ++ c.diff, rfl⟩) (by decide)

/-! ## C2: the retry path re-awaits settled promises -/

lemma promiseAll_ok_mem {α : Type} {l : List (Except String α)} {v : List α}
    (h : promiseAll l = .ok v) : ∀ x ∈ l, ∃ w, x = .ok w := by
  induction l generalizing v with
  | nil => intro x hx; simp at hx
  | cons x rest ih =>
    intro y hy
    match x with
    | .error e => simp [promiseAll] at h
    | .ok a =>
      simp only [promiseAll] at h
      cases hrest : promiseAll rest with
      | error e => rw [hrest] at h; simp at h
      | ok vs =>
        rw [hrest] at h
        rcases List.mem_cons.mp hy with rfl | hmem
        · exact ⟨a, rfl⟩
        · exact ih hrest y hmem

/-- A chunk whose promises include a rejection can never be passed: the loop
re-awaits the same settled promises at the same `step` forever, so the result
is `none` for every fuel. -/
lemma chunkLoop_stuck (d : List DiffAndSHA) (p : List (Except String String))
    (cs : Nat) (rng : Nat → Nat) :
    ∀ fuel step acc k, (∃ x ∈ p.drop step, ∃ e, x = .error e) →
      (chunkLoop d p cs rng fuel step acc k).1 = none := by
  intro fuel
  induction fuel with
  | zero => intro step acc k _; rfl
  | succ fuel ih =>
    intro step acc k herr
    have hlt : step < p.length := by
      by_contra hge
      push_neg at hge
      rw [List.drop_eq_nil_of_le hge] at herr
      simp at herr
    have hsplit : p.drop step = (p.drop step).take cs ++ p.drop (step + cs) := by
      conv_lhs => rw [← List.take_append_drop cs (p.drop step)]
      rw [List.drop_drop, Nat.add_comm]
    cases hpa : promiseAll ((p.drop step).take cs) with
    | error e =>
      unfold chunkLoop
      simp only [hlt, if_true, hpa]
      exact ih step acc (k + 1) herr
    | ok msgs =>
      obtain ⟨x, hx, e, rfl⟩ := herr
      rw [hsplit] at hx
      rcases List.mem_append.mp hx with hmem | hmem
      · obtain ⟨w, hw⟩ := promiseAll_ok_mem hpa _ hmem
        simp at hw
      · unfold chunkLoop
        simp only [hlt, if_true, hpa]
        exact ih (step + cs) _ (k + 2) ⟨_, hmem, e, rfl⟩

lemma chunkLoopEvents_stuck (p : List (Except String String)) (cs : Nat) (step : Nat)
    (hlt : step < p.length)
    (herr : ∃ x ∈ (p.drop step).take cs, ∃ e, x = .error e) :
    ∀ fuel, chunkLoopEvents p cs fuel step =
      List.replicate fuel (PipelineEv.chunkFailed step) := by
  intro fuel
  induction fuel with
  | zero => rfl
  | succ fuel ih =>
    obtain ⟨e, hpa, _⟩ := promiseAll_error _ herr
    unfold chunkLoopEvents
    simp [hlt, hpa, ih, List.replicate_succ]

/-- C2 (code-bug exhibit): one commit whose single generation request
rejects with a 429. Because the promises were created once by the eager
`.map` and a settled promise stays settled, every retry of the chunk fails
identically: for every fuel the loop has not terminated (`none`), and the
event trace is the one issuance followed by nothing but failures of the same
chunk at offset `0` — the request is never re-issued, so a backend that
would succeed on a second request can never be asked. -/
theorem improveMessagesInChunks_retry_never_reissues :
    ∀ fuel rng,
      (improveMessagesInChunks (fun _ => .error "429: Too Many Requests") rng
        [⟨"sha1", "dfail"⟩] fuel).1 = none ∧
      improvePipelineEvents (fun _ => .error "429: Too Many Requests")
        [⟨"sha1", "dfail"⟩] fuel =
        PipelineEv.issue 0 :: List.replicate fuel (PipelineEv.chunkFailed 0) := by
  intro fuel rng
  constructor
  · exact chunkLoop_stuck _ _ _ rng fuel 0 [] 0
      ⟨.error "429: Too Many Requests", by simp, _, rfl⟩
  · unfold improvePipelineEvents
    rw [chunkLoopEvents_stuck _ _ 0 (by simp)
      ⟨.error "429: Too Many Requests", by simp [chunkSizeOf], _, rfl⟩]
    rfl

/-! ## C3: all requests are issued before the first chunk is awaited -/

/-- C3 (code-bug exhibit): five commits (chunk size 3), always-succeeding
backend. The eager `.map` at github-action.ts:67 issues all five requests
before the loop awaits anything, so the trace is five issuances followed by
the two chunk completions; in particular `issue 3` and `issue 4` — the
second chunk's requests — precede `chunkDone 0 3`, contradicting
chunk-by-chunk fan-out. -/
theorem improvePipelineEvents_all_issued_upfront :
    improvePipelineEvents (fun diff => .ok ("msg:" ++ diff))
        [⟨"s0", "d0"⟩, ⟨"s1", "d1"⟩, ⟨"s2", "d2"⟩, ⟨"s3", "d3"⟩, ⟨"s4", "d4"⟩] 3 =
      [.issue 0, .issue 1, .issue 2, .issue 3, .issue 4,
       .chunkDone 0 3, .chunkDone 3 2] ∧
    List.indexOf (PipelineEv.issue 3)
        (improvePipelineEvents (fun diff => .ok ("msg:" ++ diff))
          [⟨"s0", "d0"⟩, ⟨"s1", "d1"⟩, ⟨"s2", "d2"⟩, ⟨"s3", "d3"⟩, ⟨"s4", "d4"⟩] 3) <
      List.indexOf (PipelineEv.chunkDone 0 3)
        (improvePipelineEvents (fun diff => .ok ("msg:" ++ diff))
          [⟨"s0", "d0"⟩, ⟨"s1", "d1"⟩, ⟨"s2", "d2"⟩, ⟨"s3", "d3"⟩, ⟨"s4", "d4"⟩] 3) := by
  constructor
  · rfl
  · decide

/-! ## C10: loop invariant `improvedMessagesAndSHAs.length = step` -/

/-- The loop states `(step, improvedMessagesAndSHAs)` visited by the chunk
loop of `improveMessagesInChunks`, mirroring its transitions exactly: the
initial state is `(0, [])`; a successful chunk appends `chunkResults` and
advances `step` by `chunkSize`; a failed chunk leaves both unchanged (the
`step -= chunkSize` of the catch block cancels against the loop's
`step += chunkSize`). -/
inductive Reaches (d : List DiffAndSHA) (p : List (Except String String)) (cs : Nat) :
    Nat → List MsgAndSHA → Prop
  | init : Reaches d p cs 0 []
  | succStep {step acc msgs} : Reaches d p cs step acc → step < p.length →
      promiseAll ((p.drop step).take cs) = .ok msgs →
      Reaches d p cs (step + cs) (acc ++ chunkResults d acc msgs)
  | failStep {step acc e} : Reaches d p cs step acc → step < p.length →
      promiseAll ((p.drop step).take cs) = .error e →
      Reaches d p cs step acc

lemma reaches_acc_length (d : List DiffAndSHA) (p : List (Except String String))
    (cs : Nat) : ∀ step acc, Reaches d p cs step acc → step ≤ p.length →
      acc.length = step := by
  intro step acc h
  induction h with
  | init => intro _; rfl
  | @succStep step acc msgs _ hlt hpa ih =>
    intro hle
    have hacc : acc.length = step := ih (le_of_lt hlt)
    have hmlen : msgs.length = min cs (p.length - step) := by
      rw [promiseAll_ok_length hpa]
      simp
    rw [List.length_append, chunkResults_length, hacc, hmlen]
    omega
  | failStep _ _ _ ih => exact fun _ => ih (by omega)

/-- C10: at the start of every loop iteration (a reachable state whose
`step` still satisfies the loop condition), the accumulated results count
equals the chunk's starting offset, and consequently the `i`-th entry the
success path would append is paired with the sha at input position
`step + i`. Preservation by both the success and the failure transition is
the induction underlying `reaches_acc_length`. -/
theorem chunkLoop_invariant (d : List DiffAndSHA) (p : List (Except String String))
    (cs : Nat) (step : Nat) (acc : List MsgAndSHA)
    (hreach : Reaches d p cs step acc) (hstart : step < p.length) :
    acc.length = step ∧
    ∀ msgs, promiseAll ((p.drop step).take cs) = .ok msgs →
      ∀ i, i < msgs.length →
        (chunkResults d acc msgs).get? i =
          some ⟨((d.get? (step + i)).getD default).sha, msgs.getD i ""⟩ := by
  have hacc := reaches_acc_length d p cs step acc hreach (le_of_lt hstart)
  refine ⟨hacc, ?_⟩
  intro msgs _ i hi
  rw [chunkResults_get?, hacc, List.get?_eq_get hi]
  simp [List.getD_eq_get?, List.getElem?_eq_getElem hi]

/-- C10 witness: the invariant holds at the initial state of a concrete
one-promise run. -/
theorem chunkLoop_invariant_witness :
    ([] : List MsgAndSHA).length = 0 ∧
    ∀ msgs, promiseAll ((([Except.ok "m"] : List (Except String String)).drop 0).take 3) =
        .ok msgs →
      ∀ i, i < msgs.length →
        (chunkResults [⟨"a", "x"⟩] [] msgs).get? i =
          some ⟨((([⟨"a", "x"⟩] : List DiffAndSHA).get? (0 + i)).getD default).sha,
            msgs.getD i ""⟩ :=
  chunkLoop_invariant [⟨"a", "x"⟩] [.ok "m"] 3 0 [] Reaches.init (by decide)

/-! ## C9: sleeps on the all-success path -/

/-- Modelled from the spec: `randomIntFromInterval(1, 5)` (imported at
github-action.ts:10; its source file is not under src/) returns a uniform
integer in `[1, 5]`. `rng` is its stream of draws and this predicate the
range guarantee; uniformity and independence are distributional properties
outside the embedding. -/
def RandomIntStreamBounds (rng : Nat → Nat) : Prop :=
  ∀ n, 1 ≤ rng n ∧ rng n ≤ 5

lemma chunkLoop_trace_allOk (d : List DiffAndSHA) (p : List (Except String String))
    (cs : Nat) (rng : Nat → Nat) (hok : ∀ x ∈ p, ∃ v, x = .ok v) :
    ∀ fuel step acc k, ∀ ev ∈ (chunkLoop d p cs rng fuel step acc k).2,
      ∃ j, ev = SleepEv.short (1000 * rng j + 100 * rng (j + 1)) := by
  intro fuel
  induction fuel with
  | zero => intro step acc k ev hev; simp [chunkLoop] at hev
  | succ fuel ih =>
    intro step acc k ev hev
    by_cases hlt : step < p.length
    · have hchunkok : ∀ x ∈ (p.drop step).take cs, ∃ v, x = .ok v := fun x hx =>
        hok x (List.mem_of_mem_drop (List.mem_of_mem_take hx))
      have hpa := promiseAll_ok "" _ hchunkok
      unfold chunkLoop at hev
      simp only [hlt, if_true, hpa] at hev
      rcases List.mem_cons.mp hev with rfl | hmem
      · exact ⟨k, rfl⟩
      · exact ih _ _ _ ev hmem
    · unfold chunkLoop at hev
      simp [hlt] at hev

/-- C9: when every generation request succeeds, every sleep the pipeline
performs is the inter-chunk jitter `1000·U₁ + 100·U₂` built from two
consecutive draws of the `randomIntFromInterval(1, 5)` stream (each in
`[1, 5]`, so at most `5500` ms), and the long rate-limit backoff never
occurs. -/
theorem improveMessagesInChunks_success_path_sleeps
    (generate : String → Except String String) (rng : Nat → Nat)
    (diffsAndSHAs : List DiffAndSHA) (fuel : Nat)
    (hrng : RandomIntStreamBounds rng)
    (hok : ∀ c ∈ diffsAndSHAs, ∃ v, generate c.diff = .ok v) :
    (∀ ev ∈ (improveMessagesInChunks generate rng diffsAndSHAs fuel).2,
      ∃ j, ev = SleepEv.short (1000 * rng j + 100 * rng (j + 1)) ∧
        1 ≤ rng j ∧ rng j ≤ 5 ∧ 1 ≤ rng (j + 1) ∧ rng (j + 1) ≤ 5 ∧
        1000 * rng j + 100 * rng (j + 1) ≤ 5500) ∧
    ∀ ms, SleepEv.long ms ∉ (improveMessagesInChunks generate rng diffsAndSHAs fuel).2 := by
  have hok' : ∀ x ∈ diffsAndSHAs.map fun c => generate c.diff, ∃ v, x = .ok v := by
    intro x hx
    obtain ⟨c, hc, rfl⟩ := List.mem_map.mp hx
    exact hok c hc
  have hshape := chunkLoop_trace_allOk diffsAndSHAs _ (chunkSizeOf diffsAndSHAs.length)
    rng hok' fuel 0 [] 0
  constructor
  · intro ev hev
    obtain ⟨j, rfl⟩ := hshape ev hev
    obtain ⟨h1, h2⟩ := hrng j
    obtain ⟨h3, h4⟩ := hrng (j + 1)
    exact ⟨j, rfl, h1, h2, h3, h4, by omega⟩
  · intro ms hmem
    obtain ⟨j, hj⟩ := hshape _ hmem
    simp at hj

/-- C9 witness: with a constant draw of 2 and a succeeding backend, the long
backoff value never appears in the sleep trace of a concrete run. -/
theorem improveMessagesInChunks_success_path_sleeps_witness :
    SleepEv.long 62000 ∉
      (improveMessagesInChunks (fun diff => .ok diff) (fun _ => 2) [⟨"s", "d"⟩] 2).2 :=
  (improveMessagesInChunks_success_path_sleeps (fun diff => .ok diff) (fun _ => 2)
    [⟨"s", "d"⟩] 2 (fun n => ⟨by norm_num, by norm_num⟩) (fun c _ => ⟨c.diff, rfl⟩)).2 62000

/-! ## C4 and C5: the rewrite section's effect protocol -/

/-- `writeFileSync` effects. -/
def Effect.isWrite : Effect → Bool
  | .writeFile _ _ => true
  | _ => false

/-- `unlinkSync` effects. -/
def Effect.isUnlink : Effect → Bool
  | .unlink _ => true
  | _ => false

/-- `exec.exec('git', ['rebase', ...])` invocations. -/
def Effect.isRebase : Effect → Bool
  | .exec "git" ("rebase" :: _) _ => true
  | _ => false

lemma countP_map_of_all_true {α β : Type} (p : β → Bool) (f : α → β) (l : List α)
    (h : ∀ a, p (f a) = true) : (l.map f).countP p = l.length := by
  rw [List.countP_map]
  exact List.countP_eq_length.mpr fun a _ => h a

lemma countP_map_of_all_false {α β : Type} (p : β → Bool) (f : α → β) (l : List α)
    (h : ∀ a, p (f a) = false) : (l.map f).countP p = 0 := by
  rw [List.countP_map, List.countP_eq_zero]
  exact fun a _ => by simp [Function.comp, h a]

/-- C5: if every improved message equals its original message (index-aligned
exact string equality), the rewrite section performs no effect at all — no
filesystem write, no rebase, no force-push. -/
theorem rewriteEffects_noop (actor : String) (commitsToImprove : List CommitRef)
    (improved : List MsgAndSHA)
    (heq : ∀ i, i < improved.length →
      ((improved.get? i).getD default).msg =
        ((commitsToImprove.get? i).getD default).message) :
    rewriteEffects actor commitsToImprove improved = [] := by
  have hch : messagesChanged commitsToImprove improved = false := by
    unfold messagesChanged
    rw [← Bool.not_eq_true, List.any_eq_true]
    push_neg
    rw [List.forall_mem_enum]
    intro i hi
    have := heq i hi
    rw [List.get?_eq_get hi] at this
    simp only [Option.getD_some] at this
    simp only [List.get_eq_getElem, List.get?_eq_getElem?] at this
    simp [this]
  unfold rewriteEffects
  rw [hch]
  rfl

/-- C5 witness: one commit whose improved message equals the original. -/
theorem rewriteEffects_noop_witness :
    rewriteEffects "actor" [⟨"sha1", "same msg"⟩] [⟨"sha1", "same msg"⟩] = [] :=
  rewriteEffects_noop "actor" [⟨"sha1", "same msg"⟩] [⟨"sha1", "same msg"⟩]
    (by intro i hi; simp at hi; subst hi; rfl)

/-- C4: when at least one improved message differs, the rewrite section
writes exactly `N + 2` files — the `N` per-index message files with the
improved texts, the counter file containing `"0"`, and the script file —
marks the script executable, performs exactly one rebase (anchored at the
first commit id with a `^` suffix, sequence editor rewording every commit,
committer name and email set explicitly), deletes exactly `N + 2` files, and
force-pushes. -/
theorem rewriteEffects_protocol (actor : String)
    (commitsToImprove : List CommitRef) (improved : List MsgAndSHA)
    (hlen : improved.length = commitsToImprove.length)
    (hch : messagesChanged commitsToImprove improved = true) :
    ((rewriteEffects actor commitsToImprove improved).countP Effect.isWrite =
        improved.length + 2) ∧
    (∀ i, ∀ h : i < improved.length,
      Effect.writeFile ("./commit-" ++ toString i ++ ".txt") (improved.get ⟨i, h⟩).msg ∈
        rewriteEffects actor commitsToImprove improved) ∧
    Effect.writeFile "./count.txt" "0" ∈ rewriteEffects actor commitsToImprove improved ∧
    Effect.writeFile "./rebase-exec.sh" rebaseScript ∈
      rewriteEffects actor commitsToImprove improved ∧
    Effect.exec "chmod +x ./rebase-exec.sh" [] [] ∈
      rewriteEffects actor commitsToImprove improved ∧
    ((rewriteEffects actor commitsToImprove improved).countP Effect.isRebase = 1) ∧
    Effect.exec "git"
        ["rebase", ((commitsToImprove.get? 0).getD default).id ++ "^",
         "--exec", "./rebase-exec.sh"] (rebaseEnv actor) ∈
      rewriteEffects actor commitsToImprove improved ∧
    ((rewriteEffects actor commitsToImprove improved).countP Effect.isUnlink =
        commitsToImprove.length + 2) ∧
    (∀ i, i < commitsToImprove.length →
      Effect.unlink ("./commit-" ++ toString i ++ ".txt") ∈
        rewriteEffects actor commitsToImprove improved) ∧
    Effect.exec "git" ["push", "--force"] [] ∈
      rewriteEffects actor commitsToImprove improved := by
  have heff : rewriteEffects actor commitsToImprove improved =
      (improved.enum.map fun p =>
        Effect.writeFile ("./commit-" ++ toString p.1 ++ ".txt") p.2.msg)
      ++ [Effect.writeFile "./count.txt" "0",
          Effect.writeFile "./rebase-exec.sh" rebaseScript,
          Effect.exec "chmod +x ./rebase-exec.sh" [] [],
          Effect.exec "git"
            ["rebase", ((commitsToImprove.get? 0).getD default).id ++ "^",
             "--exec", "./rebase-exec.sh"] (rebaseEnv actor)]
      ++ (commitsToImprove.enum.map fun p =>
          Effect.unlink ("./commit-" ++ toString p.1 ++ ".txt"))
      ++ [Effect.unlink "./count.txt", Effect.unlink "./rebase-exec.sh",
          Effect.exec "git" ["status"] [],
          Effect.exec "git" ["push", "--force"] []] := by
    unfold rewriteEffects
    rw [hch]
    rfl
  rw [heff]
  refine ⟨?_, ?_, ?_, ?_, ?_, ?_, ?_, ?_, ?_, ?_⟩
  · rw [List.countP_append, List.countP_append, List.countP_append]
    rw [countP_map_of_all_true Effect.isWrite _ _ (by intro a; rfl)]
    rw [countP_map_of_all_false Effect.isWrite _ _ (by intro a; rfl)]
    simp [List.countP_cons, Effect.isWrite, List.enum_length]
  · intro i h
    apply List.mem_append_left
    apply List.mem_append_left
    apply List.mem_append_left
    exact List.mem_map_of_mem _ (List.mk_mem_enum_iff_getElem?.mpr (by simp [h]))
  · apply List.mem_append_left
    apply List.mem_append_left
    apply List.mem_append_right
    simp
  · apply List.mem_append_left
    apply List.mem_append_left
    apply List.mem_append_right
    simp
  · apply List.mem_append_left
    apply List.mem_append_left
    apply List.mem_append_right
    simp
  · rw [List.countP_append, List.countP_append, List.countP_append]
    rw [countP_map_of_all_false Effect.isRebase _ _ (by intro a; rfl)]
    rw [countP_map_of_all_false Effect.isRebase _ _ (by intro a; rfl)]
    simp [List.countP_cons, Effect.isRebase]
  · apply List.mem_append_left
    apply List.mem_append_left
    apply List.mem_append_right
    simp
  · rw [List.countP_append, List.countP_append, List.countP_append]
    rw [countP_map_of_all_false Effect.isUnlink _ _ (by intro a; rfl)]
    rw [countP_map_of_all_true Effect.isUnlink _ _ (by intro a; rfl)]
    simp [List.countP_cons, Effect.isUnlink, List.enum_length]
  · intro i h
    apply List.mem_append_left
    apply List.mem_append_right
    have hmem : (i, commitsToImprove.get ⟨i, h⟩) ∈ commitsToImprove.enum :=
      List.mk_mem_enum_iff_getElem?.mpr (by simp [h])
    exact List.mem_map_of_mem _ hmem
  · apply List.mem_append_right
    simp

/-- C4 witness: one commit whose improved message differs from the original. -/
theorem rewriteEffects_protocol_witness :
    ((rewriteEffects "bot" [⟨"abc", "old"⟩] [⟨"abc", "new"⟩]).countP Effect.isWrite =
        ([⟨"abc", "new"⟩] : List MsgAndSHA).length + 2) ∧
    (∀ i, ∀ h : i < ([⟨"abc", "new"⟩] : List MsgAndSHA).length,
      Effect.writeFile ("./commit-" ++ toString i ++ ".txt")
          (([⟨"abc", "new"⟩] : List MsgAndSHA).get ⟨i, h⟩).msg ∈
        rewriteEffects "bot" [⟨"abc", "old"⟩] [⟨"abc", "new"⟩]) ∧
    Effect.writeFile "./count.txt" "0" ∈
      rewriteEffects "bot" [⟨"abc", "old"⟩] [⟨"abc", "new"⟩] ∧
    Effect.writeFile "./rebase-exec.sh" rebaseScript ∈
      rewriteEffects "bot" [⟨"abc", "old"⟩] [⟨"abc", "new"⟩] ∧
    Effect.exec "chmod +x ./rebase-exec.sh" [] [] ∈
      rewriteEffects "bot" [⟨"abc", "old"⟩] [⟨"abc", "new"⟩] ∧
    ((rewriteEffects "bot" [⟨"abc", "old"⟩] [⟨"abc", "new"⟩]).countP Effect.isRebase = 1) ∧
    Effect.exec "git"
        ["rebase", ((([⟨"abc", "old"⟩] : List CommitRef).get? 0).getD default).id ++ "^",
         "--exec", "./rebase-exec.sh"] (rebaseEnv "bot") ∈
      rewriteEffects "bot" [⟨"abc", "old"⟩] [⟨"abc", "new"⟩] ∧
    ((rewriteEffects "bot" [⟨"abc", "old"⟩] [⟨"abc", "new"⟩]).countP Effect.isUnlink =
        ([⟨"abc", "old"⟩] : List CommitRef).length + 2) ∧
    (∀ i, i < ([⟨"abc", "old"⟩] : List CommitRef).length →
      Effect.unlink ("./commit-" ++ toString i ++ ".txt") ∈
        rewriteEffects "bot" [⟨"abc", "old"⟩] [⟨"abc", "new"⟩]) ∧
    Effect.exec "git" ["push", "--force"] [] ∈
      rewriteEffects "bot" [⟨"abc", "old"⟩] [⟨"abc", "new"⟩] :=
  rewriteEffects_protocol "bot" [⟨"abc", "old"⟩] [⟨"abc", "new"⟩] rfl (by decide)

/-! ## C6: chunk-size policy and the empty-list terminal path -/

/-- C6: the chunk size the pipeline uses is exactly 4 when the number of
commits is even and exactly 3 when odd; and on an empty commit list
`improveCommitMessages` returns at the explicit "No new commits found." path
— the result is `noNewCommits` for every fetch and generation backend, so
neither the diff fetch nor the pipeline is ever consulted. -/
theorem chunkSize_policy_and_empty_list (n : Nat) (hn : 1 ≤ n) :
    (n % 2 = 0 → chunkSizeOf n = 4) ∧
    (n % 2 ≠ 0 → chunkSizeOf n = 3) ∧
    ∀ fetch generate rng fuel actor,
      improveCommitMessages fetch generate rng fuel actor [] =
        ImproveResult.noNewCommits := by
  refine ⟨?_, ?_, ?_⟩
  · intro h; simp [chunkSizeOf, h]
  · intro h; simp [chunkSizeOf, h]
  · intro fetch generate rng fuel actor; rfl

/-- C6 witness: even count 4 gives chunk size 4, and a concrete empty run
ends at the no-new-commits path. -/
theorem chunkSize_policy_and_empty_list_witness :
    chunkSizeOf 4 = 4 ∧
    improveCommitMessages (fun s => .ok s) (fun s => .ok s) (fun _ => 1) 1 "octo" [] =
      ImproveResult.noNewCommits :=
  ⟨(chunkSize_policy_and_empty_list 4 (by decide)).1 rfl,
   (chunkSize_policy_and_empty_list 4 (by decide)).2.2 _ _ _ 1 "octo"⟩

/-! ## C7: exit-code semantics of `run` -/

/-- C7 counterexample: invoked on a `pull_request` event (any non-`push`
event), the source takes the `else` branch of `run`, which calls
`outro('Wrong action.')` and `core.error(...)`; `core.error` only emits an
error annotation and does not set the failing exit code, so the process
exits 0 — the claim demands a failure signal on this path. -/
theorem run_wrong_event_exits_zero :
    run (fun s => .ok s) (fun s => .ok s) (fun _ => 1) 1
      ⟨"pull_request", "octocat", [⟨"abc", "old"⟩]⟩ = ExitStatus.success := rfl

/-- C7 amended: the run signals success (exit 0) on a completed push or a
detected no-op; it signals failure (exit 1 via `core.setFailed`) exactly
when an error is thrown inside the try block of a push event (modelled: a
diff-fetch failure); a non-`push` event logs an error annotation but still
exits 0; a persistently failing chunk never exits at all. -/
theorem run_exit_semantics (fetch generate : String → Except String String)
    (rng : Nat → Nat) (fuel : Nat) (ctx : RunCtx) :
    (run fetch generate rng fuel ctx = .failed ↔
      ctx.eventName = "push" ∧
        ∃ e, improveCommitMessages fetch generate rng fuel ctx.actor ctx.commits =
          .fetchFailed e) ∧
    (ctx.eventName ≠ "push" → run fetch generate rng fuel ctx = .success) := by
  constructor
  · unfold run
    by_cases h : ctx.eventName = "push"
    · simp only [h, if_true]
      cases himp : improveCommitMessages fetch generate rng fuel ctx.actor ctx.commits <;>
        simp [himp]
    · simp [h]
  · intro h
    unfold run
    simp [h]

/-- C7 amended witness: a concrete non-push event exits 0. -/
theorem run_exit_semantics_witness :
    run (fun s => .ok s) (fun s => .ok s) (fun _ => 1) 1
      ⟨"workflow_dispatch", "octocat", []⟩ = ExitStatus.success :=
  (run_exit_semantics (fun s => .ok s) (fun s => .ok s) (fun _ => 1) 1
    ⟨"workflow_dispatch", "octocat", []⟩).2 (by decide)

/-! ## C8: atomicity of the bulk diff fetch -/

/-- C8: `getDiffsBySHAs` is atomic. If any sha's fetch fails, the whole
batch is an error — that error is the error of one of the failing fetches,
and no partial list is returned; if every fetch succeeds, the result is one
diff record per sha, in input order, pairing each sha with its fetched diff
body. -/
theorem getDiffsBySHAs_atomic (request : String → Except String String)
    (SHAs : List String) :
    ((∃ sha ∈ SHAs, ∃ e, request sha = .error e) →
      ∃ e, getDiffsBySHAs request SHAs = .error e ∧
        ∃ sha ∈ SHAs, request sha = .error e) ∧
    ((∀ sha ∈ SHAs, ∃ d, request sha = .ok d) →
      getDiffsBySHAs request SHAs =
        .ok (SHAs.map fun sha => ⟨sha, okVal "" (request sha)⟩)) := by
  constructor
  · rintro ⟨sha, hsha, e, he⟩
    have herr : ∃ x ∈ SHAs.map (getCommitDiff request), ∃ e, x = .error e := by
      refine ⟨getCommitDiff request sha, List.mem_map_of_mem _ hsha, e, ?_⟩
      simp [getCommitDiff, he]
    obtain ⟨e', he', hmem⟩ := promiseAll_error _ herr
    refine ⟨e', he', ?_⟩
    obtain ⟨sha', hsha', heq⟩ := List.mem_map.mp hmem
    refine ⟨sha', hsha', ?_⟩
    cases hr : request sha' with
    | ok d =>
      unfold getCommitDiff at heq
      rw [hr] at heq
      simp at heq
    | error e2 =>
      unfold getCommitDiff at heq
      rw [hr] at heq
      simp only [Except.error.injEq] at heq
      rw [heq]
  · intro hok
    unfold getDiffsBySHAs
    have hall : ∀ x ∈ SHAs.map (getCommitDiff request), ∃ v, x = .ok v := by
      intro x hx
      obtain ⟨sha, hsha, rfl⟩ := List.mem_map.mp hx
      obtain ⟨d, hd⟩ := hok sha hsha
      exact ⟨⟨sha, d⟩, by simp [getCommitDiff, hd]⟩
    rw [promiseAll_ok default _ hall, List.map_map]
    congr 1
    apply List.map_congr_left
    intro sha hsha
    obtain ⟨d, hd⟩ := hok sha hsha
    simp [Function.comp, getCommitDiff, hd, okVal]

/-- C8 witness: a concrete batch where one of two fetches fails makes the
whole batch fail with that fetch's error. -/
theorem getDiffsBySHAs_atomic_witness :
    ∃ e, getDiffsBySHAs
        (fun s => if s = "bad" then .error "boom" else .ok ("diff-" ++ s))
        ["good", "bad"] = .error e ∧
      ∃ sha ∈ ["good", "bad"],
        (fun s => if s = "bad" then .error "boom" else .ok ("diff-" ++ s) :
          String → Except String String) sha = .error e :=
  (getDiffsBySHAs_atomic
    (fun s => if s = "bad" then .error "boom" else .ok ("diff-" ++ s))
    ["good", "bad"]).1 ⟨"bad", by decide, "boom", by simp⟩

end OpenCommit
